import Mathlib

/-!
Verification development for the web-server log analyzer
(`log_analyzer.py`): a shallow embedding of the line parser
(the three regular-expression patterns together with Python
`re`-style greedy backtracking prefix matching), the streaming
aggregator and its statistics derivation, followed by theorems
about the embedded definitions.

Modelling conventions:
* Python strings are `List Char`; the character classes `\d`, `\w`,
  `\s` are modelled on their ASCII fragments (the inputs of interest
  are ASCII log lines).
* Python dicts (`defaultdict(int)` / `Counter`) are association
  lists preserving insertion order, exactly as Python dicts do.
* Python floats are modelled as exact rationals `ℚ`.
-/

set_option maxHeartbeats 1000000

/-- ASCII model of the regex class `\d`. -/
def isDigitChar (c : Char) : Bool := c.isDigit

/-- ASCII model of the regex class `\w` (alphanumeric or underscore). -/
def isWordChar (c : Char) : Bool := c.isAlphanum || c = '_'

/-- ASCII model of the regex class `\s` (Python whitespace). -/
def isSpaceChar (c : Char) : Bool :=
  c = ' ' || c = '\t' || c = '\n' || c = '\r' || c = '\x0b' || c = '\x0c'

/-- The regex class `[\d\.]`. -/
def isDigitOrDot (c : Char) : Bool := c.isDigit || c = '.'

/-- The regex class `[\d-]`. -/
def isDigitOrDash (c : Char) : Bool := c.isDigit || c = '-'

/-- The regex class `[\w-]`. -/
def isWordOrDash (c : Char) : Bool := isWordChar c || c = '-'

/-- The regex class `[^\]]`. -/
def isNotRBracket (c : Char) : Bool := !(c = ']')

/-- The regex class `[^\s]`. -/
def isNonSpace (c : Char) : Bool := !(isSpaceChar c)

/-- Python `str.strip()`: remove leading and trailing whitespace. -/
def strip (s : List Char) : List Char :=
  ((s.dropWhile isSpaceChar).reverse.dropWhile isSpaceChar).reverse

/-- One element of a (flat) regular-expression pattern: either a literal
character, or a one-or-more repetition `C+` of a character class,
optionally named as a capture group.  The final `List Char` component of
`plus` is the matcher's in-progress capture accumulator (characters
consumed so far, in reverse); in pattern definitions it is `[]`. -/
inductive RItem where
  | lit : Char → RItem
  | plus : (Char → Bool) → Option String → List Char → RItem

/-- The named-group dictionary produced by a successful match
(`match.groupdict()`), in group-definition order. -/
abbrev Groups := List (String × List Char)

/-- Record a finished capture group (anonymous groups record nothing). -/
def addGroup (name : Option String) (txt : List Char) (d : Groups) : Groups :=
  match name with
  | some n => (n, txt) :: d
  | none => d

/-- Greedy backtracking matcher for a flat pattern, anchored at the start
of `s` but free to leave a suffix of `s` unconsumed — the semantics of
Python `pattern.match(s)` for the flat patterns used here.  At a `plus`
item the matcher prefers consuming a further class character and falls
back to ending the repetition (which requires at least one consumed
character).  `fuel` is a structural-recursion bound; every recursive call
strictly decreases `items.length + s.length`. -/
def matchAux : Nat → List RItem → List Char → Option Groups
  | 0, _, _ => none
  | _ + 1, [], _ => some []
  | fuel + 1, RItem.lit c :: rest, s =>
    match s with
    | [] => none
    | c' :: s' => if c' = c then matchAux fuel rest s' else none
  | fuel + 1, RItem.plus cls name acc :: rest, s =>
    match s with
    | [] =>
      if acc.isEmpty then none
      else (matchAux fuel rest []).map (addGroup name acc.reverse)
    | c :: s' =>
      if cls c then
        match matchAux fuel (RItem.plus cls name (c :: acc) :: rest) s' with
        | some d => some d
        | none =>
          if acc.isEmpty then none
          else (matchAux fuel rest (c :: s')).map (addGroup name acc.reverse)
      else
        if acc.isEmpty then none
        else (matchAux fuel rest (c :: s')).map (addGroup name acc.reverse)

/-- Sufficient fuel for `matchAux` on a given pattern and subject. -/
def fuelFor (items : List RItem) (s : List Char) : Nat :=
  items.length + s.length + 1

/-- Model of `pattern.match(s)`: attempt the pattern at the start of `s`,
returning the named-group dictionary on success. -/
def matchItems (items : List RItem) (s : List Char) : Option Groups :=
  matchAux (fuelFor items s) items s

/-- Literal fragment of a pattern. -/
def lits (s : String) : List RItem := s.toList.map RItem.lit

/-- The `APACHE_COMBINED` pattern:
`(?P<ip>[\d\.]+) - - \[(?P<timestamp>[^\]]+)\] "(?P<method>\w+)
(?P<endpoint>[^\s]+) HTTP/[\d\.]+" (?P<status>\d+) (?P<bytes>[\d-]+)`. -/
def APACHE_COMBINED : List RItem :=
  [RItem.plus isDigitOrDot (some "ip") []] ++ lits " - - [" ++
  [RItem.plus isNotRBracket (some "timestamp") []] ++ lits "] \"" ++
  [RItem.plus isWordChar (some "method") []] ++ lits " " ++
  [RItem.plus isNonSpace (some "endpoint") []] ++ lits " HTTP/" ++
  [RItem.plus isDigitOrDot none []] ++ lits "\" " ++
  [RItem.plus isDigitChar (some "status") []] ++ lits " " ++
  [RItem.plus isDigitOrDash (some "bytes") []]

/-- The `NGINX_COMBINED` pattern — textually identical to
`APACHE_COMBINED` in the source, kept as a separate definition exactly as
the source keeps a separate compiled regex. -/
def NGINX_COMBINED : List RItem :=
  [RItem.plus isDigitOrDot (some "ip") []] ++ lits " - - [" ++
  [RItem.plus isNotRBracket (some "timestamp") []] ++ lits "] \"" ++
  [RItem.plus isWordChar (some "method") []] ++ lits " " ++
  [RItem.plus isNonSpace (some "endpoint") []] ++ lits " HTTP/" ++
  [RItem.plus isDigitOrDot none []] ++ lits "\" " ++
  [RItem.plus isDigitChar (some "status") []] ++ lits " " ++
  [RItem.plus isDigitOrDash (some "bytes") []]

/-- The `EXTENDED_FORMAT` pattern, which additionally captures an
authenticated-user field `(?P<user>[\w-]+)` between the client address
and the timestamp. -/
def EXTENDED_FORMAT : List RItem :=
  [RItem.plus isDigitOrDot (some "ip") []] ++ lits " - " ++
  [RItem.plus isWordOrDash (some "user") []] ++ lits " [" ++
  [RItem.plus isNotRBracket (some "timestamp") []] ++ lits "] \"" ++
  [RItem.plus isWordChar (some "method") []] ++ lits " " ++
  [RItem.plus isNonSpace (some "endpoint") []] ++ lits " HTTP/" ++
  [RItem.plus isDigitOrDot none []] ++ lits "\" " ++
  [RItem.plus isDigitChar (some "status") []] ++ lits " " ++
  [RItem.plus isDigitOrDash (some "bytes") []]

/-- Model of `LogAnalyzer.parse_line`: strip the line, refuse the empty line, then
try the three patterns in their fixed order, first match winning. -/
def parse_line (line : List Char) : Option Groups :=
  let s := strip line
  if s.isEmpty then none
  else
    match matchItems APACHE_COMBINED s with
    | some d => some d
    | none =>
      match matchItems NGINX_COMBINED s with
      | some d => some d
      | none => matchItems EXTENDED_FORMAT s

/-- Python `d.get(k, default)` on an association-list dictionary. -/
def lookupD {κ α : Type} [DecidableEq κ] (m : List (κ × α)) (k : κ) (d : α) : α :=
  match m with
  | [] => d
  | (k', v) :: rest => if k = k' then v else lookupD rest k d

/-- Python `m[k] += v` on an insertion-ordered counter dictionary: add `v` to the
entry for `k` if present (keeping its position), otherwise append `(k, v)`
at the end — exactly the `defaultdict(int)` / `Counter` update. -/
def addAt (m : List (List Char × Nat)) (k : List Char) (v : Nat) :
    List (List Char × Nat) :=
  match m with
  | [] => [(k, v)]
  | (k', v') :: rest =>
    if k = k' then (k', v' + v) :: rest else (k', v') :: addAt rest k v

/-- Python `m[k] += 1`. -/
def bump (m : List (List Char × Nat)) (k : List Char) : List (List Char × Nat) :=
  addAt m k 1

/-- The value stored for `k`, with the `defaultdict(int)` default `0`. -/
def valOf (m : List (List Char × Nat)) (k : List Char) : Nat :=
  lookupD m k 0

/-- The keys of a counter dictionary, in insertion order. -/
def keysOf (m : List (List Char × Nat)) : List (List Char) :=
  m.map Prod.fst

/-- Sum of the values of a counter dictionary (`sum(m.values())`). -/
def sumVals (m : List (List Char × Nat)) : Nat :=
  (m.map Prod.snd).sum

/-- Python `s.startswith(c)` for a single character `c`. -/
def startsWithChar (s : List Char) (c : Char) : Bool :=
  match s with
  | [] => false
  | a :: _ => a = c

/-- The `AggregationState` owned by `LogAnalyzer`: the running counters
and the bounded sample of unparsable lines. -/
structure AggState where
  total_requests : Nat
  ip_requests : List (List Char × Nat)
  ip_errors : List (List Char × Nat)
  endpoints : List (List Char × Nat)
  status_codes : List (List Char × Nat)
  methods : List (List Char × Nat)
  failed_lines : List (Nat × List Char)
deriving DecidableEq

/-- The freshly constructed analyzer state (`LogAnalyzer.__init__`). -/
def initState : AggState :=
  { total_requests := 0, ip_requests := [], ip_errors := [], endpoints := []
    status_codes := [], methods := [], failed_lines := [] }

/-- Model of `LogAnalyzer._update_statistics`: fold one parsed record into the
counters; a status code starting with '4' or '5' also counts as an error
for its client. -/
def update_statistics (st : AggState) (parsed : Groups) : AggState :=
  let ip := lookupD parsed "ip" ("unknown".toList)
  let method := lookupD parsed "method" ("unknown".toList)
  let endpoint := lookupD parsed "endpoint" ("unknown".toList)
  let status := lookupD parsed "status" ("000".toList)
  { st with
    total_requests := st.total_requests + 1
    ip_requests := bump st.ip_requests ip
    endpoints := bump st.endpoints endpoint
    status_codes := bump st.status_codes status
    methods := bump st.methods method
    ip_errors :=
      if startsWithChar status '4' || startsWithChar status '5' then
        bump st.ip_errors ip
      else st.ip_errors }

/-- One iteration of the `process_log_file` loop on line number `n`:
parse the line; on success fold it into the counters; on failure append
`(n, first 100 characters of the stripped line)` to the failure sample,
but only while the sample holds fewer than 10 entries. -/
def ingest (st : AggState) (n : Nat) (line : List Char) : AggState :=
  match parse_line line with
  | some parsed => update_statistics st parsed
  | none =>
    if st.failed_lines.length < 10 then
      { st with failed_lines := st.failed_lines ++ [(n, (strip line).take 100)] }
    else st

/-- The `process_log_file` loop from an arbitrary state, numbering lines
from `n`. -/
def processFrom (st : AggState) (n : Nat) : List (List Char) → AggState
  | [] => st
  | l :: ls => processFrom (ingest st n l) (n + 1) ls

/-- Model of `LogAnalyzer.process_log_file` on the list of lines of the file
(line numbers starting at 1, as `enumerate(f, 1)` does). -/
def process_log (lines : List (List Char)) : AggState :=
  processFrom initState 1 lines

/-- One tuple `(ip, total_requests, errors, error_rate)` produced by
`identify_suspicious_ips`. -/
structure SusEntry where
  ip : List Char
  total : Nat
  errors : Nat
  error_rate : ℚ
deriving DecidableEq

/-- The candidate pass of `identify_suspicious_ips`: walk
`ip_requests.items()` in insertion order, compute each client's error
count (`ip_errors.get(ip, 0)`) and error rate (`errors / total` when
`total > 0`, else `0`), and keep the clients meeting both thresholds. -/
def susCandidates (st : AggState) (error_threshold : Nat)
    (error_rate_threshold : ℚ) : List SusEntry :=
  st.ip_requests.filterMap (fun p =>
    let errors := valOf st.ip_errors p.1
    let error_rate : ℚ := if 0 < p.2 then (errors : ℚ) / (p.2 : ℚ) else 0
    if error_threshold ≤ errors ∧ error_rate_threshold ≤ error_rate then
      some ⟨p.1, p.2, errors, error_rate⟩
    else none)

/-- Stable insertion for a descending sort on the error count: the new
element goes in front of the first element whose error count does not
exceed it, i.e. later elements never jump in front of equal earlier
ones.  `list.sort(key=..., reverse=True)` is exactly this stable
descending sort. -/
def insertErrDesc (x : SusEntry) : List SusEntry → List SusEntry
  | [] => [x]
  | y :: ys => if y.errors ≤ x.errors then x :: y :: ys else y :: insertErrDesc x ys

/-- Stable sort by error count descending. -/
def sortErrDesc : List SusEntry → List SusEntry
  | [] => []
  | x :: xs => insertErrDesc x (sortErrDesc xs)

/-- Model of `LogAnalyzer.identify_suspicious_ips`: filter, then sort by error
count descending (stable). -/
def identify_suspicious_ips (st : AggState) (error_threshold : Nat)
    (error_rate_threshold : ℚ) : List SusEntry :=
  sortErrDesc (susCandidates st error_threshold error_rate_threshold)

/-- Stable insertion for a descending sort of counter entries by count —
the order produced by `Counter.most_common` (and by `heapq.nlargest`,
which is documented equivalent to `sorted(...)[:n]`). -/
def insertCntDesc (x : List Char × Nat) :
    List (List Char × Nat) → List (List Char × Nat)
  | [] => [x]
  | y :: ys => if y.2 ≤ x.2 then x :: y :: ys else y :: insertCntDesc x ys

/-- Stable sort of counter entries by count descending. -/
def sortCntDesc : List (List Char × Nat) → List (List Char × Nat)
  | [] => []
  | x :: xs => insertCntDesc x (sortCntDesc xs)

/-- Python `Counter.most_common()`: all entries, by count descending, ties in
insertion order. -/
def most_common (m : List (List Char × Nat)) : List (List Char × Nat) :=
  sortCntDesc m

/-- Python `Counter.most_common(n)`. -/
def most_commonN (m : List (List Char × Nat)) (n : Nat) : List (List Char × Nat) :=
  (sortCntDesc m).take n

/-- Python `sum(count for code, count in codes.items() if code.startswith(c))`. -/
def bucketSum (codes : List (List Char × Nat)) (c : Char) : Nat :=
  ((codes.filter (fun p => startsWithChar p.1 c)).map Prod.snd).sum

/-- Round-half-to-even on an exact rational, the rounding mode of
Python's `round`. -/
def roundHalfEven (q : ℚ) : ℤ :=
  let n := ⌊q⌋
  let r := q - (n : ℚ)
  if r < 1 / 2 then n
  else if 1 / 2 < r then n + 1
  else if n % 2 = 0 then n else n + 1

/-- Python `round(q, 3)` on the exact-rational model of the float. -/
def round3 (q : ℚ) : ℚ := (roundHalfEven (q * 1000) : ℚ) / 1000

/-- The `summary` block of the statistics report. -/
structure Summary where
  total_requests : Nat
  unique_ips : Nat
  unique_endpoints : Nat
  unique_status_codes : Nat
  suspicious_ips_count : Nat
deriving DecidableEq

/-- The `status_codes.summary` block: the four class buckets. -/
structure StatusSummary where
  success2xx : Nat
  redirect3xx : Nat
  clientError4xx : Nat
  serverError5xx : Nat
deriving DecidableEq

/-- One entry of the `suspicious_ips` report list. -/
structure SusReport where
  ip : List Char
  total_requests : Nat
  errors : Nat
  error_rate : ℚ
deriving DecidableEq

/-- The `StatisticsReport` value produced by `generate_statistics`. -/
structure Report where
  summary : Summary
  http_methods : List (List Char × Nat)
  status_breakdown : List (List Char × Nat)
  status_summary : StatusSummary
  top_endpoints : List (List Char × Nat)
  top_ips : List (List Char × Nat)
  suspicious_ips : List SusReport
deriving DecidableEq

/-- Model of `LogAnalyzer.generate_statistics`: derive the full report from the
current state and the two configured thresholds. -/
def generate_statistics (st : AggState) (error_threshold : Nat)
    (error_rate_threshold : ℚ) : Report :=
  let sus := identify_suspicious_ips st error_threshold error_rate_threshold
  { summary :=
      { total_requests := st.total_requests
        unique_ips := st.ip_requests.length
        unique_endpoints := st.endpoints.length
        unique_status_codes := st.status_codes.length
        suspicious_ips_count := sus.length }
    http_methods := most_common st.methods
    status_breakdown := most_common st.status_codes
    status_summary :=
      { success2xx := bucketSum st.status_codes '2'
        redirect3xx := bucketSum st.status_codes '3'
        clientError4xx := bucketSum st.status_codes '4'
        serverError5xx := bucketSum st.status_codes '5' }
    top_endpoints := most_commonN st.endpoints 20
    top_ips := most_commonN st.ip_requests 20
    suspicious_ips := sus.map (fun e =>
      { ip := e.ip, total_requests := e.total, errors := e.errors
        error_rate := round3 e.error_rate }) }

/-- Field-by-field sum of two counter dictionaries: fold the right-hand
entries into the left with `addAt`, so keys keep their first-encounter
order and values add. -/
def mergeMap (a b : List (List Char × Nat)) : List (List Char × Nat) :=
  b.foldl (fun acc p => addAt acc p.1 p.2) a

/-- Field-by-field sum of two aggregation states (the merge the spec
prescribes for sharded processing).  The unparsable-line sample is not a
counter; the merged sample keeps the first 10 sampled lines. -/
def mergeStates (a b : AggState) : AggState :=
  { total_requests := a.total_requests + b.total_requests
    ip_requests := mergeMap a.ip_requests b.ip_requests
    ip_errors := mergeMap a.ip_errors b.ip_errors
    endpoints := mergeMap a.endpoints b.endpoints
    status_codes := mergeMap a.status_codes b.status_codes
    methods := mergeMap a.methods b.methods
    failed_lines := (a.failed_lines ++ b.failed_lines).take 10 }

/-- Invariant of reachable aggregation states: counter keys are
duplicate-free, the grand total equals the sum of per-client requests,
and every recorded error entry is dominated by the client's request
entry. -/
def InvCE (st : AggState) : Prop :=
  (keysOf st.ip_requests).Nodup ∧ (keysOf st.ip_errors).Nodup ∧
  st.total_requests = sumVals st.ip_requests ∧
  ∀ c e, (c, e) ∈ st.ip_errors → ∃ r, (c, r) ∈ st.ip_requests ∧ e ≤ r

/-- The named groups declared by a pattern, in declaration order — the
key set of `groupdict()`. -/
def groupNames (items : List RItem) : List String :=
  items.filterMap (fun it =>
    match it with
    | RItem.plus _ name _ => name
    | RItem.lit _ => none)

/-- The character class attached to each group name across the three
patterns. -/
def clsForName (n : String) : Char → Bool :=
  if n = "ip" then isDigitOrDot
  else if n = "timestamp" then isNotRBracket
  else if n = "method" then isWordChar
  else if n = "endpoint" then isNonSpace
  else if n = "status" then isDigitChar
  else if n = "user" then isWordOrDash
  else isDigitOrDash

/-- Python `enumerate(lines, n)`. -/
def enumFrom (n : Nat) : List (List Char) → List (Nat × List Char)
  | [] => []
  | l :: ls => (n, l) :: enumFrom (n + 1) ls

/-- The failure sample an ingestion run appends to an existing sample:
the failing lines of the input, each as (line number, first 100
characters of the stripped line), truncated to the remaining capacity. -/
def failSample (n : Nat) (lines : List (List Char)) (cap : Nat) :
    List (Nat × List Char) :=
  (((enumFrom n lines).filter (fun p => (parse_line p.2).isNone)).map
    (fun p => (p.1, (strip p.2).take 100))).take cap

/-- The counter effect of one `ingestLine` call: parse failures leave the
counters untouched (they only touch the failure sample, which is not a
counter). -/
def ctrStep (st : AggState) (line : List Char) : AggState :=
  match parse_line line with
  | some parsed => update_statistics st parsed
  | none => st

/-- Equality of the six counter fields of two aggregation states (the
fields `mergeStates` sums and `generate_statistics` reads). -/
def CEq (a b : AggState) : Prop :=
  a.total_requests = b.total_requests ∧ a.ip_requests = b.ip_requests ∧
  a.ip_errors = b.ip_errors ∧ a.endpoints = b.endpoints ∧
  a.status_codes = b.status_codes ∧ a.methods = b.methods

/-! ### Basic lemmas about counter dictionaries -/

theorem sumVals_addAt (m : List (List Char × Nat)) (k : List Char) (v : Nat) :
    sumVals (addAt m k v) = sumVals m + v := by
  induction m with
  | nil => simp [addAt, sumVals]
  | cons p rest ih =>
    obtain ⟨k', v'⟩ := p
    by_cases h : k = k' <;> simp [addAt, h, sumVals] at ih ⊢ <;> omega

theorem mem_keysOf {m : List (List Char × Nat)} {k : List Char} :
    k ∈ keysOf m ↔ ∃ v, (k, v) ∈ m := by
  unfold keysOf
  constructor
  · intro h
    obtain ⟨⟨a, b⟩, hm, he⟩ := List.mem_map.1 h
    simp only at he
    subst he
    exact ⟨b, hm⟩
  · rintro ⟨v, hv⟩
    exact List.mem_map.2 ⟨(k, v), hv, rfl⟩

theorem keysOf_addAt_mem {m : List (List Char × Nat)} {k : List Char} (v : Nat)
    (h : k ∈ keysOf m) : keysOf (addAt m k v) = keysOf m := by
  induction m with
  | nil => simp [keysOf] at h
  | cons p rest ih =>
    obtain ⟨k', v'⟩ := p
    by_cases hk : k = k'
    · simp [addAt, hk, keysOf]
    · have h' : k ∈ keysOf rest := by
        rw [keysOf, List.map_cons, List.mem_cons] at h
        rcases h with h | h
        · exact absurd h hk
        · exact h
      have ih' := ih h'
      simp only [addAt, if_neg hk, keysOf, List.map_cons] at ih' ⊢
      rw [ih']

theorem keysOf_addAt_notMem {m : List (List Char × Nat)} {k : List Char} (v : Nat)
    (h : k ∉ keysOf m) : keysOf (addAt m k v) = keysOf m ++ [k] := by
  induction m with
  | nil => simp [addAt, keysOf]
  | cons p rest ih =>
    obtain ⟨k', v'⟩ := p
    have h1 : ¬ (k = k') := fun he => h (by rw [keysOf, List.map_cons]; exact he ▸ List.mem_cons_self _ _)
    have h2 : k ∉ keysOf rest := fun hm => h (by rw [keysOf, List.map_cons]; exact List.mem_cons_of_mem _ hm)
    have ih' := ih h2
    simp only [addAt, if_neg h1, keysOf, List.map_cons] at ih' ⊢
    rw [ih']
    simp

theorem nodup_keysOf_addAt {m : List (List Char × Nat)} {k : List Char} (v : Nat)
    (h : (keysOf m).Nodup) : (keysOf (addAt m k v)).Nodup := by
  by_cases hk : k ∈ keysOf m
  · rwa [keysOf_addAt_mem v hk]
  · rw [keysOf_addAt_notMem v hk]
    simp [List.nodup_append, h, hk]

theorem mem_addAt_of_mem {m : List (List Char × Nat)} {c : List Char} {r : Nat}
    (k : List Char) (v : Nat) (h : (c, r) ∈ m) :
    ∃ r', (c, r') ∈ addAt m k v ∧ r ≤ r' := by
  induction m with
  | nil => simp at h
  | cons p rest ih =>
    obtain ⟨k', v'⟩ := p
    by_cases hk : k = k'
    · subst hk
      rcases List.mem_cons.1 h with h | h
      · rw [Prod.mk.injEq] at h
        obtain ⟨rfl, rfl⟩ := h
        exact ⟨r + v, by simp [addAt], Nat.le_add_right r v⟩
      · exact ⟨r, by simp [addAt]; exact Or.inr h, le_refl r⟩
    · rcases List.mem_cons.1 h with h | h
      · rw [Prod.mk.injEq] at h
        obtain ⟨rfl, rfl⟩ := h
        exact ⟨r, by simp [addAt, hk], le_refl r⟩
      · obtain ⟨r', h1, h2⟩ := ih h
        exact ⟨r', by simp [addAt, hk]; exact Or.inr h1, h2⟩

theorem mem_addAt_cases {m : List (List Char × Nat)} {k c : List Char}
    {v e' : Nat} (h : (c, e') ∈ addAt m k v) :
    (c, e') ∈ m ∨
      (c = k ∧ ((e' = v ∧ k ∉ keysOf m) ∨ ∃ e, (c, e) ∈ m ∧ e' = e + v)) := by
  induction m with
  | nil =>
    simp [addAt] at h
    exact Or.inr ⟨h.1, Or.inl ⟨h.2, by simp [keysOf]⟩⟩
  | cons p rest ih =>
    obtain ⟨k', w⟩ := p
    by_cases hk : k = k'
    · subst hk
      simp only [addAt, if_pos rfl] at h
      rcases List.mem_cons.1 h with h | h
      · rw [Prod.mk.injEq] at h
        obtain ⟨rfl, rfl⟩ := h
        exact Or.inr ⟨rfl, Or.inr ⟨w, List.mem_cons_self _ _, rfl⟩⟩
      · exact Or.inl (List.mem_cons_of_mem _ h)
    · simp only [addAt, if_neg hk] at h
      rcases List.mem_cons.1 h with h | h
      · exact Or.inl (List.mem_cons.2 (Or.inl h))
      · rcases ih h with h' | ⟨rfl, h2⟩
        · exact Or.inl (List.mem_cons_of_mem _ h')
        · refine Or.inr ⟨rfl, ?_⟩
          rcases h2 with ⟨h2, h3⟩ | ⟨e, h2, h3⟩
          · refine Or.inl ⟨h2, fun hmem => ?_⟩
            rcases List.mem_cons.1 hmem with hmem | hmem
            · simp only [keysOf, List.map_cons] at hmem
              exact hk (by simpa using hmem)
            · exact h3 (by simpa [keysOf] using hmem)
          · exact Or.inr ⟨e, List.mem_cons_of_mem _ h2, h3⟩

theorem mem_addAt_self_of_nodup {m : List (List Char × Nat)} {k : List Char}
    {r : Nat} (v : Nat) (hnd : (keysOf m).Nodup) (h : (k, r) ∈ m) :
    (k, r + v) ∈ addAt m k v := by
  induction m with
  | nil => simp at h
  | cons p rest ih =>
    obtain ⟨k', w⟩ := p
    rw [keysOf, List.map_cons, List.nodup_cons] at hnd
    by_cases hk : k = k'
    · subst hk
      rcases List.mem_cons.1 h with h | h
      · rw [Prod.mk.injEq] at h
        obtain ⟨-, rfl⟩ := h
        simp [addAt]
      · exact absurd (mem_keysOf.2 ⟨r, h⟩) (by simpa [keysOf] using hnd.1)
    · rcases List.mem_cons.1 h with h | h
      · rw [Prod.mk.injEq] at h
        exact absurd h.1 hk
      · simp only [addAt, if_neg hk]
        exact List.mem_cons_of_mem _ (ih hnd.2 h)

theorem mem_addAt_notMem {m : List (List Char × Nat)} {k : List Char} (v : Nat)
    (h : k ∉ keysOf m) : addAt m k v = m ++ [(k, v)] := by
  induction m with
  | nil => simp [addAt]
  | cons p rest ih =>
    obtain ⟨k', w⟩ := p
    have h1 : ¬ (k = k') := fun he => h (by rw [keysOf, List.map_cons]; exact he ▸ List.mem_cons_self _ _)
    have h2 : k ∉ keysOf rest := fun hm => h (by rw [keysOf, List.map_cons]; exact List.mem_cons_of_mem _ hm)
    simp only [addAt, if_neg h1, List.cons_append]
    rw [ih h2]

/-! ### The inductive invariant behind C2 and C3 -/

theorem invCE_init : InvCE initState := by
  refine ⟨by simp [initState, keysOf], by simp [initState, keysOf], rfl, ?_⟩
  intro c e h
  simp [initState] at h

theorem invCE_update (st : AggState) (parsed : Groups) (h : InvCE st) :
    InvCE (update_statistics st parsed) := by
  obtain ⟨hnd1, hnd2, hsum, hbound⟩ := h
  simp only [update_statistics]
  set ip := lookupD parsed "ip" ("unknown".toList) with hip
  set status := lookupD parsed "status" ("000".toList) with hst
  have hsum' : st.total_requests + 1 = sumVals (bump st.ip_requests ip) := by
    rw [bump, sumVals_addAt]
    omega
  by_cases herr : (startsWithChar status '4' || startsWithChar status '5') = true
  · rw [if_pos herr]
    refine ⟨nodup_keysOf_addAt 1 hnd1, nodup_keysOf_addAt 1 hnd2, hsum', ?_⟩
    intro c e hmem
    rw [bump] at hmem
    rcases mem_addAt_cases hmem with hold | ⟨rfl, hcase⟩
    · obtain ⟨r, hr, her⟩ := hbound c e hold
      obtain ⟨r', hr', hle⟩ := mem_addAt_of_mem ip 1 hr
      exact ⟨r', hr', le_trans her hle⟩
    · rcases hcase with ⟨rfl, -⟩ | ⟨e0, he0, rfl⟩
      · by_cases hkip : ip ∈ keysOf st.ip_requests
        · obtain ⟨r, hr⟩ := mem_keysOf.1 hkip
          exact ⟨r + 1, mem_addAt_self_of_nodup 1 hnd1 hr, by omega⟩
        · exact ⟨1, by rw [bump, mem_addAt_notMem 1 hkip]; simp, le_refl 1⟩
      · obtain ⟨r, hr, her⟩ := hbound ip e0 he0
        exact ⟨r + 1, mem_addAt_self_of_nodup 1 hnd1 hr, by omega⟩
  · rw [if_neg herr]
    refine ⟨nodup_keysOf_addAt 1 hnd1, hnd2, hsum', ?_⟩
    intro c e hmem
    obtain ⟨r, hr, her⟩ := hbound c e hmem
    obtain ⟨r', hr', hle⟩ := mem_addAt_of_mem ip 1 hr
    exact ⟨r', hr', le_trans her hle⟩

theorem invCE_ingest (st : AggState) (n : Nat) (line : List Char)
    (h : InvCE st) : InvCE (ingest st n line) := by
  unfold ingest
  cases hp : parse_line line with
  | some parsed => exact invCE_update st parsed h
  | none =>
    by_cases hlen : st.failed_lines.length < 10 <;>
      simpa [hlen] using h

theorem invCE_processFrom (lines : List (List Char)) :
    ∀ (st : AggState) (n : Nat), InvCE st → InvCE (processFrom st n lines) := by
  induction lines with
  | nil => intro st n h; exact h
  | cons l ls ih =>
    intro st n h
    exact ih (ingest st n l) (n + 1) (invCE_ingest st n l h)

theorem invCE_process_log (lines : List (List Char)) : InvCE (process_log lines) :=
  invCE_processFrom lines initState 1 invCE_init

/-- Claim C2: after any sequence of `ingestLine` calls starting from a
fresh aggregator, `totalRequestCount` equals the sum of the values of
`perClientRequestCount`. -/
theorem total_requests_eq_sum_ip_requests (lines : List (List Char)) :
    (process_log lines).total_requests = sumVals (process_log lines).ip_requests :=
  (invCE_process_log lines).2.2.1

/-- Claim C3: after any sequence of `ingestLine` calls starting from a
fresh aggregator, every client present in `perClientErrorCount` is also
present in `perClientRequestCount`, with an error count bounded by the
request count. -/
theorem ip_errors_le_ip_requests (lines : List (List Char)) :
    ∀ c e, (c, e) ∈ (process_log lines).ip_errors →
      ∃ r, (c, r) ∈ (process_log lines).ip_requests ∧ e ≤ r :=
  (invCE_process_log lines).2.2.2

/-- Witness for C3 at a concrete input: the client of one ingested 404
line appears in both maps with error count 1 ≤ request count. -/
theorem ip_errors_le_ip_requests_witness :
    ∃ r, ("10.0.0.1".toList, r) ∈
        (process_log ["10.0.0.1 - - [10/Oct/2023:13:55:36 -0700] \"GET /index.html HTTP/1.1\" 404 1234".toList]).ip_requests
      ∧ 1 ≤ r :=
  ip_errors_le_ip_requests
    ["10.0.0.1 - - [10/Oct/2023:13:55:36 -0700] \"GET /index.html HTTP/1.1\" 404 1234".toList]
    ("10.0.0.1".toList) 1 (by decide)

/-- Claim C7: the concrete scenario.  The sample line parses to the five
expected request fields (plus the raw timestamp), and ingesting it once
into a fresh aggregator yields `totalRequestCount = 1`,
`statusCodeFrequency["404"] = 1` and `perClientErrorCount["10.0.0.1"] = 1`. -/
theorem concrete_line_scenario :
    parse_line ("10.0.0.1 - - [10/Oct/2023:13:55:36 -0700] \"GET /index.html HTTP/1.1\" 404 1234".toList)
      = some [("ip", "10.0.0.1".toList), ("timestamp", "10/Oct/2023:13:55:36 -0700".toList),
              ("method", "GET".toList), ("endpoint", "/index.html".toList),
              ("status", "404".toList), ("bytes", "1234".toList)]
    ∧ (process_log ["10.0.0.1 - - [10/Oct/2023:13:55:36 -0700] \"GET /index.html HTTP/1.1\" 404 1234".toList]).total_requests = 1
    ∧ valOf (process_log ["10.0.0.1 - - [10/Oct/2023:13:55:36 -0700] \"GET /index.html HTTP/1.1\" 404 1234".toList]).status_codes ("404".toList) = 1
    ∧ valOf (process_log ["10.0.0.1 - - [10/Oct/2023:13:55:36 -0700] \"GET /index.html HTTP/1.1\" 404 1234".toList]).ip_errors ("10.0.0.1".toList) = 1 := by
  refine ⟨by decide, by decide, by decide, by decide⟩

/-! ### Matcher metatheory (for C8, C9, C10) -/

theorem matchAux_fuel_zero (items : List RItem) (s : List Char) :
    matchAux 0 items s = none := rfl

theorem matchAux_items_nil (f : Nat) (s : List Char) :
    matchAux (f + 1) [] s = some [] := rfl

theorem matchAux_lit_nil (f : Nat) (c : Char) (rest : List RItem) :
    matchAux (f + 1) (RItem.lit c :: rest) [] = none := rfl

theorem matchAux_lit_cons (f : Nat) (c : Char) (rest : List RItem)
    (c' : Char) (s' : List Char) :
    matchAux (f + 1) (RItem.lit c :: rest) (c' :: s')
      = if c' = c then matchAux f rest s' else none := rfl

theorem matchAux_plus_nil (f : Nat) (cls : Char → Bool) (name : Option String)
    (acc : List Char) (rest : List RItem) :
    matchAux (f + 1) (RItem.plus cls name acc :: rest) []
      = if acc.isEmpty then none
        else (matchAux f rest []).map (addGroup name acc.reverse) := rfl

theorem matchAux_plus_cons (f : Nat) (cls : Char → Bool) (name : Option String)
    (acc : List Char) (rest : List RItem) (c : Char) (s' : List Char) :
    matchAux (f + 1) (RItem.plus cls name acc :: rest) (c :: s')
      = if cls c then
          match matchAux f (RItem.plus cls name (c :: acc) :: rest) s' with
          | some d => some d
          | none =>
            if acc.isEmpty then none
            else (matchAux f rest (c :: s')).map (addGroup name acc.reverse)
        else
          if acc.isEmpty then none
          else (matchAux f rest (c :: s')).map (addGroup name acc.reverse) := rfl

/-- A successful match produces exactly the pattern's declared group
names, in declaration order. -/
theorem matchAux_names :
    ∀ (f : Nat) (items : List RItem) (s : List Char) (d : Groups),
      matchAux f items s = some d → d.map Prod.fst = groupNames items := by
  intro f
  induction f with
  | zero =>
    intro items s d h
    rw [matchAux_fuel_zero] at h
    cases h
  | succ f ih =>
    intro items s d h
    cases items with
    | nil =>
      rw [matchAux_items_nil] at h
      cases h
      simp [groupNames]
    | cons it rest =>
      cases it with
      | lit c =>
        cases s with
        | nil =>
          rw [matchAux_lit_nil] at h
          cases h
        | cons c' s' =>
          rw [matchAux_lit_cons] at h
          by_cases hc : c' = c
          · rw [if_pos hc] at h
            have := ih rest s' d h
            simpa [groupNames, List.filterMap_cons] using this
          · rw [if_neg hc] at h
            cases h
      | plus cls name acc =>
        have stop : ∀ (s0 : List Char) (d0 : Groups),
            (if acc.isEmpty then none
             else (matchAux f rest s0).map (addGroup name acc.reverse)) = some d0 →
            d0.map Prod.fst = groupNames (RItem.plus cls name acc :: rest) := by
          intro s0 d0 h0
          split at h0
          · cases h0
          · obtain ⟨d', hd', rfl⟩ := Option.map_eq_some'.1 h0
            have hn := ih rest s0 d' hd'
            cases name with
            | some n => simp [addGroup, groupNames, List.filterMap_cons, hn]
            | none => simp [addGroup, groupNames, List.filterMap_cons, hn]
        cases s with
        | nil =>
          rw [matchAux_plus_nil] at h
          exact stop [] d h
        | cons c s' =>
          rw [matchAux_plus_cons] at h
          by_cases hc : cls c = true
          · rw [if_pos hc] at h
            cases hinner : matchAux f (RItem.plus cls name (c :: acc) :: rest) s' with
            | some d0 =>
              simp only [hinner, Option.some.injEq] at h
              subst h
              have hn := ih _ _ _ hinner
              simpa [groupNames, List.filterMap_cons] using hn
            | none =>
              simp only [hinner] at h
              exact stop (c :: s') d h
          · rw [if_neg hc] at h
            exact stop (c :: s') d h

/-- Every capture of a successful match comes from a `plus` item of the
pattern bearing that group name, is nonempty, and (when the item's
accumulator holds only class characters, as it does in every pattern
definition) consists only of characters of that item's class. -/
theorem matchAux_groups :
    ∀ (f : Nat) (items : List RItem) (s : List Char) (d : Groups),
      matchAux f items s = some d →
      ∀ n txt, (n, txt) ∈ d →
        ∃ cls acc, RItem.plus cls (some n) acc ∈ items ∧
          (acc.all cls = true → txt ≠ [] ∧ txt.all cls = true) := by
  intro f
  induction f with
  | zero =>
    intro items s d h
    rw [matchAux_fuel_zero] at h
    cases h
  | succ f ih =>
    intro items s d h
    cases items with
    | nil =>
      rw [matchAux_items_nil] at h
      cases h
      intro n txt hmem
      cases hmem
    | cons it rest =>
      cases it with
      | lit c =>
        cases s with
        | nil =>
          rw [matchAux_lit_nil] at h
          cases h
        | cons c' s' =>
          rw [matchAux_lit_cons] at h
          by_cases hc : c' = c
          · rw [if_pos hc] at h
            intro n txt hmem
            obtain ⟨cls, acc, hin, himp⟩ := ih rest s' d h n txt hmem
            exact ⟨cls, acc, List.mem_cons_of_mem _ hin, himp⟩
          · rw [if_neg hc] at h
            cases h
      | plus cls name acc =>
        have stop : ∀ (s0 : List Char) (d0 : Groups),
            (if acc.isEmpty then none
             else (matchAux f rest s0).map (addGroup name acc.reverse)) = some d0 →
            ∀ n txt, (n, txt) ∈ d0 →
              ∃ cls' acc', RItem.plus cls' (some n) acc' ∈ RItem.plus cls name acc :: rest ∧
                (acc'.all cls' = true → txt ≠ [] ∧ txt.all cls' = true) := by
          intro s0 d0 h0 n txt hmem
          split at h0
          · cases h0
          · rename_i hne
            obtain ⟨d', hd', rfl⟩ := Option.map_eq_some'.1 h0
            cases name with
            | some n0 =>
              simp only [addGroup] at hmem
              rcases List.mem_cons.1 hmem with hmem' | hmem'
              · rw [Prod.mk.injEq] at hmem'
                obtain ⟨rfl, rfl⟩ := hmem'
                refine ⟨cls, acc, List.mem_cons_self _ _, fun hall => ⟨?_, ?_⟩⟩
                · intro hrev
                  exact hne (by simpa [List.isEmpty_iff] using
                    List.reverse_eq_nil_iff.1 hrev)
                · simpa [List.all_reverse] using hall
              · obtain ⟨cls', acc', hin, himp⟩ := ih rest s0 d' hd' n txt hmem'
                exact ⟨cls', acc', List.mem_cons_of_mem _ hin, himp⟩
            | none =>
              simp only [addGroup] at hmem
              obtain ⟨cls', acc', hin, himp⟩ := ih rest s0 d' hd' n txt hmem
              exact ⟨cls', acc', List.mem_cons_of_mem _ hin, himp⟩
        cases s with
        | nil =>
          rw [matchAux_plus_nil] at h
          exact stop [] d h
        | cons c s' =>
          rw [matchAux_plus_cons] at h
          by_cases hc : cls c = true
          · rw [if_pos hc] at h
            cases hinner : matchAux f (RItem.plus cls name (c :: acc) :: rest) s' with
            | some d0 =>
              simp only [hinner, Option.some.injEq] at h
              subst h
              intro n txt hmem
              obtain ⟨cls', acc', hin, himp⟩ := ih _ _ _ hinner n txt hmem
              rcases List.mem_cons.1 hin with hin' | hin'
              · rw [RItem.plus.injEq] at hin'
                obtain ⟨rfl, rfl, rfl⟩ := hin'
                refine ⟨cls', acc, List.mem_cons_self _ _, fun hall => ?_⟩
                exact himp (by simp [hall, hc])
              · exact ⟨cls', acc', List.mem_cons_of_mem _ hin', himp⟩
            | none =>
              simp only [hinner] at h
              exact stop (c :: s') d h
          · rw [if_neg hc] at h
            exact stop (c :: s') d h

theorem mem_apache_plus {cls : Char → Bool} {n : String} {acc : List Char}
    (h : RItem.plus cls (some n) acc ∈ APACHE_COMBINED) :
    cls = clsForName n ∧ acc = [] := by
  simp only [APACHE_COMBINED, lits, List.mem_append, List.mem_cons, List.mem_map,
    List.not_mem_nil, or_false, RItem.plus.injEq, Option.some.injEq,
    reduceCtorEq, exists_false, false_or, and_false, false_and, or_self,
    or_assoc] at h
  rcases h with h | h | h | h | h | h
  all_goals obtain ⟨rfl, rfl, rfl⟩ := h
  all_goals exact ⟨rfl, rfl⟩

theorem mem_nginx_plus {cls : Char → Bool} {n : String} {acc : List Char}
    (h : RItem.plus cls (some n) acc ∈ NGINX_COMBINED) :
    cls = clsForName n ∧ acc = [] := by
  simp only [NGINX_COMBINED, lits, List.mem_append, List.mem_cons, List.mem_map,
    List.not_mem_nil, or_false, RItem.plus.injEq, Option.some.injEq,
    reduceCtorEq, exists_false, false_or, and_false, false_and, or_self,
    or_assoc] at h
  rcases h with h | h | h | h | h | h
  all_goals obtain ⟨rfl, rfl, rfl⟩ := h
  all_goals exact ⟨rfl, rfl⟩

theorem mem_extended_plus {cls : Char → Bool} {n : String} {acc : List Char}
    (h : RItem.plus cls (some n) acc ∈ EXTENDED_FORMAT) :
    cls = clsForName n ∧ acc = [] := by
  simp only [EXTENDED_FORMAT, lits, List.mem_append, List.mem_cons, List.mem_map,
    List.not_mem_nil, or_false, RItem.plus.injEq, Option.some.injEq,
    reduceCtorEq, exists_false, false_or, and_false, false_and, or_self,
    or_assoc] at h
  rcases h with h | h | h | h | h | h | h
  all_goals obtain ⟨rfl, rfl, rfl⟩ := h
  all_goals exact ⟨rfl, rfl⟩

/-- Every capture of a successful `parse_line` is nonempty and consists
only of characters of the class its pattern attaches to that group
name. -/
theorem parse_line_groups_shape {line : List Char} {d : Groups}
    (h : parse_line line = some d) :
    ∀ n txt, (n, txt) ∈ d → txt ≠ [] ∧ txt.all (clsForName n) = true := by
  simp only [parse_line] at h
  by_cases he : (strip line).isEmpty
  · rw [if_pos he] at h
    cases h
  · rw [if_neg he] at h
    intro n txt hmem
    cases hA : matchItems APACHE_COMBINED (strip line) with
    | some dA =>
      simp only [hA, Option.some.injEq] at h
      subst h
      obtain ⟨cls, acc, hin, himp⟩ :=
        matchAux_groups _ _ _ _ (by simpa [matchItems] using hA) n txt hmem
      obtain ⟨rfl, rfl⟩ := mem_apache_plus hin
      exact himp rfl
    | none =>
      simp only [hA] at h
      cases hN : matchItems NGINX_COMBINED (strip line) with
      | some dN =>
        simp only [hN, Option.some.injEq] at h
        subst h
        obtain ⟨cls, acc, hin, himp⟩ :=
          matchAux_groups _ _ _ _ (by simpa [matchItems] using hN) n txt hmem
        obtain ⟨rfl, rfl⟩ := mem_nginx_plus hin
        exact himp rfl
      | none =>
        simp only [hN] at h
        obtain ⟨cls, acc, hin, himp⟩ :=
          matchAux_groups _ _ _ _ (by simpa [matchItems] using h) n txt hmem
        obtain ⟨rfl, rfl⟩ := mem_extended_plus hin
        exact himp rfl

theorem failSample_zero (n : Nat) (lines : List (List Char)) :
    failSample n lines 0 = [] := by
  simp [failSample]

theorem failSample_cons_none {l : List Char} (hp : parse_line l = none)
    (n : Nat) (ls : List (List Char)) (cap : Nat) :
    failSample n (l :: ls) (cap + 1)
      = (n, (strip l).take 100) :: failSample (n + 1) ls cap := by
  simp [failSample, enumFrom, List.filter_cons, hp]

theorem failSample_cons_some {l : List Char} {parsed : Groups}
    (hp : parse_line l = some parsed) (n : Nat) (ls : List (List Char))
    (cap : Nat) : failSample n (l :: ls) cap = failSample (n + 1) ls cap := by
  simp [failSample, enumFrom, List.filter_cons, hp]

theorem processFrom_failed_lines (lines : List (List Char)) :
    ∀ (st : AggState) (n : Nat), st.failed_lines.length ≤ 10 →
      (processFrom st n lines).failed_lines =
        st.failed_lines ++ failSample n lines (10 - st.failed_lines.length) := by
  induction lines with
  | nil =>
    intro st n h
    simp [processFrom, failSample, enumFrom]
  | cons l ls ih =>
    intro st n h
    show (processFrom (ingest st n l) (n + 1) ls).failed_lines = _
    cases hp : parse_line l with
    | some parsed =>
      have hfail : (ingest st n l).failed_lines = st.failed_lines := by
        simp [ingest, hp, update_statistics]
      rw [ih (ingest st n l) (n + 1) (by rw [hfail]; exact h), hfail,
        failSample_cons_some hp]
    | none =>
      by_cases hlen : st.failed_lines.length < 10
      · have hing : (ingest st n l).failed_lines
            = st.failed_lines ++ [(n, (strip l).take 100)] := by
          simp [ingest, hp, hlen]
        have hle : (ingest st n l).failed_lines.length ≤ 10 := by
          rw [hing]
          simp
          omega
        have hcap : 10 - st.failed_lines.length
            = (10 - (st.failed_lines.length + 1)) + 1 := by omega
        rw [ih (ingest st n l) (n + 1) hle, hing, hcap, failSample_cons_none hp]
        simp
      · have h10 : st.failed_lines.length = 10 := by omega
        have hing : ingest st n l = st := by
          simp [ingest, hp, hlen]
        rw [hing, ih st (n + 1) h, h10]
        simp [failSample_zero]

/-- Claim C5: the unparsable-line sample never exceeds 10 entries, an
entry is appended only while the sample holds fewer than 10, and each
entry is (line number, first 100 characters of the stripped line): the
sample is exactly the first 10 failing lines, so truncated. -/
theorem failed_lines_bounded (lines : List (List Char)) :
    (process_log lines).failed_lines = failSample 1 lines 10
    ∧ (process_log lines).failed_lines.length ≤ 10 := by
  have h := processFrom_failed_lines lines initState 1 (by simp [initState])
  simp only [initState, List.nil_append, List.length_nil, Nat.sub_zero] at h
  constructor
  · rw [process_log]
    simp only [initState]
    exact h
  · rw [process_log]
    simp only [initState]
    rw [h]
    simp only [failSample, List.length_take]
    omega

/-! ### Empty lines and the failure sample (C4) -/

/-- Counterexample to claim C4: a line that is empty after stripping is
appended to the unparsable-line sample — the code treats it like any
other parse failure in `process_log_file`, so the sample does change. -/
theorem empty_line_sample_counterexample :
    strip [' '] = []
    ∧ (process_log [[' ']]).failed_lines = [(1, [])]
    ∧ (process_log [[' ']]).failed_lines ≠ [] := by
  refine ⟨by decide, by decide, by decide⟩

/-- Claim C4 (amended): a line that is empty after stripping yields no
match and leaves every counter unchanged, but it *is* recorded in the
unparsable-line sample (as the pair (line number, empty string)) while
the sample holds fewer than 10 entries. -/
theorem ingest_empty_line_appends_to_sample (st : AggState) (n : Nat)
    (line : List Char) (h : strip line = []) :
    ingest st n line =
      { st with failed_lines :=
          if st.failed_lines.length < 10 then st.failed_lines ++ [(n, [])]
          else st.failed_lines } := by
  have hp : parse_line line = none := by simp [parse_line, h]
  simp only [ingest, hp, h]
  by_cases hlen : st.failed_lines.length < 10
  · rw [if_pos hlen, if_pos hlen]
    simp
  · rw [if_neg hlen, if_neg hlen]

/-- Witness for the amended C4 at a concrete input. -/
theorem ingest_empty_line_appends_to_sample_witness :
    ingest initState 1 [' '] =
      { initState with failed_lines :=
          if initState.failed_lines.length < 10 then
            initState.failed_lines ++ [(1, [])]
          else initState.failed_lines } :=
  ingest_empty_line_appends_to_sample initState 1 [' '] (by decide)

/-! ### Field shapes of accepted lines (C8) -/

/-- Counterexample to claim C8: the byte-count class `[\d-]+` accepts
arbitrary mixtures of digits and dashes (here `1-2`), and the client
address class `[\d\.]+` accepts non-dotted-quad runs (here `......`);
the line is accepted by the parser. -/
theorem byte_count_mixture_counterexample :
    parse_line ("...... - - [t] \"GET / HTTP/1.1\" 200 1-2".toList)
      = some [("ip", "......".toList), ("timestamp", "t".toList),
              ("method", "GET".toList), ("endpoint", "/".toList),
              ("status", "200".toList), ("bytes", "1-2".toList)]
    ∧ ¬("1-2".toList.all isDigitChar = true ∨ "1-2".toList = ['-']) := by
  refine ⟨by decide, by decide⟩

/-- Claim C8 (amended): every accepted line's fields match their
classes — the client address is a nonempty run of digits and dots, the
method of word characters, the path of non-whitespace, the status code
of digits, and the byte count is a nonempty run of characters each a
digit or a dash (mixtures included). -/
theorem parse_line_field_shapes {line : List Char} {d : Groups}
    (h : parse_line line = some d) :
    (∀ txt, ("ip", txt) ∈ d → txt ≠ [] ∧ txt.all isDigitOrDot = true)
    ∧ (∀ txt, ("method", txt) ∈ d → txt ≠ [] ∧ txt.all isWordChar = true)
    ∧ (∀ txt, ("endpoint", txt) ∈ d → txt ≠ [] ∧ txt.all isNonSpace = true)
    ∧ (∀ txt, ("status", txt) ∈ d → txt ≠ [] ∧ txt.all isDigitChar = true)
    ∧ (∀ txt, ("bytes", txt) ∈ d → txt ≠ [] ∧ txt.all isDigitOrDash = true) := by
  refine ⟨fun txt ht => ?_, fun txt ht => ?_, fun txt ht => ?_,
    fun txt ht => ?_, fun txt ht => ?_⟩
  · exact (show clsForName "ip" = isDigitOrDot from rfl) ▸
      parse_line_groups_shape h _ _ ht
  · exact (show clsForName "method" = isWordChar from rfl) ▸
      parse_line_groups_shape h _ _ ht
  · exact (show clsForName "endpoint" = isNonSpace from rfl) ▸
      parse_line_groups_shape h _ _ ht
  · exact (show clsForName "status" = isDigitChar from rfl) ▸
      parse_line_groups_shape h _ _ ht
  · exact (show clsForName "bytes" = isDigitOrDash from rfl) ▸
      parse_line_groups_shape h _ _ ht

/-- Witness for the amended C8 at a concrete input. -/
theorem parse_line_field_shapes_witness :
    "1234".toList ≠ [] ∧ "1234".toList.all isDigitOrDash = true :=
  (@parse_line_field_shapes
    ("10.0.0.1 - - [10/Oct/2023:13:55:36 -0700] \"GET /index.html HTTP/1.1\" 404 1234".toList)
    [("ip", "10.0.0.1".toList), ("timestamp", "10/Oct/2023:13:55:36 -0700".toList),
     ("method", "GET".toList), ("endpoint", "/index.html".toList),
     ("status", "404".toList), ("bytes", "1234".toList)]
    (by decide)).2.2.2.2 ("1234".toList) (by decide)

/-! ### Pattern order and prefix matching (C9) -/

/-- Counterexample to claim C9: a line with extra fields after the byte
count (a full combined-format line with referrer and user agent) *is*
accepted — `pattern.match` anchors at the start of the line but does not
require the pattern to cover the whole line. -/
theorem trailing_content_accepted_counterexample :
    parse_line ("10.0.0.1 - - [t] \"GET / HTTP/1.1\" 200 123 \"http://r\" \"UA\"".toList)
      = some [("ip", "10.0.0.1".toList), ("timestamp", "t".toList),
              ("method", "GET".toList), ("endpoint", "/".toList),
              ("status", "200".toList), ("bytes", "123".toList)] := by
  decide

/-- Claim C9 (amended): the three patterns are tried in a fixed order
and a pattern succeeds exactly when it structurally matches a prefix of
the stripped line anchored at its start; the first pattern that so
matches wins.  Content beyond the pattern's shape is permitted. -/
theorem patterns_first_prefix_match_wins :
    (∀ line d, matchItems APACHE_COMBINED (strip line) = some d →
      parse_line line = some d)
    ∧ (∀ line d, matchItems APACHE_COMBINED (strip line) = none →
        matchItems NGINX_COMBINED (strip line) = some d →
        parse_line line = some d)
    ∧ (∀ line d, matchItems APACHE_COMBINED (strip line) = none →
        matchItems NGINX_COMBINED (strip line) = none →
        matchItems EXTENDED_FORMAT (strip line) = some d →
        parse_line line = some d) := by
  have hne : ∀ (items : List RItem) (line : List Char) (d : Groups),
      matchItems items [] = none →
      matchItems items (strip line) = some d → ¬(strip line).isEmpty = true := by
    intro items line d hnil h he
    rw [List.isEmpty_iff.1 he, hnil] at h
    cases h
  refine ⟨fun line d h => ?_, fun line d hA h => ?_, fun line d hA hN h => ?_⟩
  · have he := hne APACHE_COMBINED line d (by decide) h
    simp only [parse_line, if_neg he, h]
  · have he := hne NGINX_COMBINED line d (by decide) h
    simp only [parse_line, if_neg he, hA, h]
  · have he := hne EXTENDED_FORMAT line d (by decide) h
    simp only [parse_line, if_neg he, hA, hN]
    exact h

/-- Witness for the amended C9 at a concrete input. -/
theorem patterns_first_prefix_match_wins_witness :
    parse_line ("1.2.3.4 - - [t] \"GET / HTTP/1.1\" 200 7".toList)
      = some [("ip", "1.2.3.4".toList), ("timestamp", "t".toList),
              ("method", "GET".toList), ("endpoint", "/".toList),
              ("status", "200".toList), ("bytes", "7".toList)] :=
  patterns_first_prefix_match_wins.1
    ("1.2.3.4 - - [t] \"GET / HTTP/1.1\" 200 7".toList) _ (by decide)

/-! ### The field set of a parse result (C10) -/

/-- Counterexample to claim C10: a line matched by the extended pattern
produces a `groupdict` with a seventh field `user` in addition to the
six fields the claim lists. -/
theorem extended_format_user_field_counterexample :
    parse_line ("10.0.0.1 - alice [t] \"GET / HTTP/1.1\" 200 7".toList)
      = some [("ip", "10.0.0.1".toList), ("user", "alice".toList),
              ("timestamp", "t".toList), ("method", "GET".toList),
              ("endpoint", "/".toList), ("status", "200".toList),
              ("bytes", "7".toList)]
    ∧ ([("ip", "10.0.0.1".toList), ("user", "alice".toList),
        ("timestamp", "t".toList), ("method", "GET".toList),
        ("endpoint", "/".toList), ("status", "200".toList),
        ("bytes", "7".toList)].map Prod.fst
          ≠ ["ip", "timestamp", "method", "endpoint", "status", "bytes"])
    ∧ "user" ∈ ([("ip", "10.0.0.1".toList), ("user", "alice".toList),
        ("timestamp", "t".toList), ("method", "GET".toList),
        ("endpoint", "/".toList), ("status", "200".toList),
        ("bytes", "7".toList)].map Prod.fst) := by
  refine ⟨by decide, by decide, by decide⟩

/-- Claim C10 (amended): a successful parse carries exactly the six
fields clientAddress, timestamp, httpMethod, requestPath, statusCode,
byteCount when one of the two combined patterns matched, and those six
plus the authenticated-user field when the extended pattern matched. -/
theorem parse_line_group_names {line : List Char} {d : Groups}
    (h : parse_line line = some d) :
    d.map Prod.fst = ["ip", "timestamp", "method", "endpoint", "status", "bytes"]
    ∨ d.map Prod.fst
        = ["ip", "user", "timestamp", "method", "endpoint", "status", "bytes"] := by
  simp only [parse_line] at h
  by_cases he : (strip line).isEmpty
  · rw [if_pos he] at h
    cases h
  · rw [if_neg he] at h
    cases hA : matchItems APACHE_COMBINED (strip line) with
    | some dA =>
      simp only [hA, Option.some.injEq] at h
      subst h
      left
      rw [matchAux_names _ _ _ _ (by simpa [matchItems] using hA)]
      decide
    | none =>
      simp only [hA] at h
      cases hN : matchItems NGINX_COMBINED (strip line) with
      | some dN =>
        simp only [hN, Option.some.injEq] at h
        subst h
        left
        rw [matchAux_names _ _ _ _ (by simpa [matchItems] using hN)]
        decide
      | none =>
        simp only [hN] at h
        right
        rw [matchAux_names _ _ _ _ (by simpa [matchItems] using h)]
        decide

/-- Witness for the amended C10 at a concrete input. -/
theorem parse_line_group_names_witness :
    ([("ip", "1.2.3.4".toList), ("timestamp", "t".toList), ("method", "GET".toList),
      ("endpoint", "/".toList), ("status", "200".toList), ("bytes", "7".toList)].map
        Prod.fst)
        = ["ip", "timestamp", "method", "endpoint", "status", "bytes"]
    ∨ ([("ip", "1.2.3.4".toList), ("timestamp", "t".toList), ("method", "GET".toList),
      ("endpoint", "/".toList), ("status", "200".toList), ("bytes", "7".toList)].map
        Prod.fst)
        = ["ip", "user", "timestamp", "method", "endpoint", "status", "bytes"] :=
  @parse_line_group_names ("1.2.3.4 - - [t] \"GET / HTTP/1.1\" 200 7".toList)
    [("ip", "1.2.3.4".toList), ("timestamp", "t".toList), ("method", "GET".toList),
     ("endpoint", "/".toList), ("status", "200".toList), ("bytes", "7".toList)]
    (by decide)

/-! ### The suspicious-client classifier (C1) -/

theorem mem_insertErrDesc {x a : SusEntry} {l : List SusEntry} :
    a ∈ insertErrDesc x l ↔ a = x ∨ a ∈ l := by
  induction l with
  | nil => simp [insertErrDesc]
  | cons y ys ih =>
    by_cases h : y.errors ≤ x.errors
    · simp [insertErrDesc, h]
    · simp [insertErrDesc, h, ih]
      tauto

theorem mem_sortErrDesc {a : SusEntry} {l : List SusEntry} :
    a ∈ sortErrDesc l ↔ a ∈ l := by
  induction l with
  | nil => simp [sortErrDesc]
  | cons x xs ih => simp [sortErrDesc, mem_insertErrDesc, ih]

theorem pairwise_insertErrDesc {x : SusEntry} {l : List SusEntry}
    (h : l.Pairwise (fun a b => b.errors ≤ a.errors)) :
    (insertErrDesc x l).Pairwise (fun a b => b.errors ≤ a.errors) := by
  induction l with
  | nil => simp [insertErrDesc]
  | cons y ys ih =>
    rcases List.pairwise_cons.1 h with ⟨hy, hys⟩
    by_cases hc : y.errors ≤ x.errors
    · rw [insertErrDesc, if_pos hc]
      refine List.pairwise_cons.2 ⟨?_, h⟩
      intro b hb
      rcases List.mem_cons.1 hb with rfl | hb
      · exact hc
      · exact le_trans (hy b hb) hc
    · rw [insertErrDesc, if_neg hc]
      refine List.pairwise_cons.2 ⟨?_, ih hys⟩
      intro b hb
      rcases mem_insertErrDesc.1 hb with rfl | hb
      · exact Nat.le_of_lt (Nat.lt_of_not_le hc)
      · exact hy b hb

theorem sorted_sortErrDesc (l : List SusEntry) :
    (sortErrDesc l).Pairwise (fun a b => b.errors ≤ a.errors) := by
  induction l with
  | nil => simp [sortErrDesc]
  | cons x xs ih => exact pairwise_insertErrDesc ih

theorem filter_insertErrDesc_eq {x : SusEntry} {k : Nat} (l : List SusEntry)
    (hx : x.errors = k) :
    (insertErrDesc x l).filter (fun e => e.errors = k)
      = x :: l.filter (fun e => e.errors = k) := by
  subst hx
  induction l with
  | nil => simp [insertErrDesc]
  | cons y ys ih =>
    by_cases hc : y.errors ≤ x.errors
    · rw [insertErrDesc, if_pos hc]
      simp [List.filter_cons]
    · have hy : ¬(y.errors = x.errors) := by omega
      rw [insertErrDesc, if_neg hc]
      simp [List.filter_cons, hy, ih]

theorem filter_insertErrDesc_ne {x : SusEntry} {k : Nat} (l : List SusEntry)
    (hx : ¬(x.errors = k)) :
    (insertErrDesc x l).filter (fun e => e.errors = k)
      = l.filter (fun e => e.errors = k) := by
  induction l with
  | nil => simp [insertErrDesc, hx]
  | cons y ys ih =>
    by_cases hc : y.errors ≤ x.errors
    · rw [insertErrDesc, if_pos hc]
      simp [List.filter_cons, hx]
    · rw [insertErrDesc, if_neg hc]
      simp [List.filter_cons, ih]

theorem filter_sortErrDesc (l : List SusEntry) (k : Nat) :
    (sortErrDesc l).filter (fun e => e.errors = k)
      = l.filter (fun e => e.errors = k) := by
  induction l with
  | nil => rfl
  | cons x xs ih =>
    by_cases hx : x.errors = k
    · rw [sortErrDesc, filter_insertErrDesc_eq _ hx, ih, List.filter_cons,
        if_pos (by simp [hx])]
    · rw [sortErrDesc, filter_insertErrDesc_ne _ hx, ih, List.filter_cons,
        if_neg (by simp [hx])]

theorem mem_susCandidates {st : AggState} {tc : Nat} {tr : ℚ} {e : SusEntry}
    (hpos : ∀ p ∈ st.ip_requests, 0 < p.2) :
    e ∈ susCandidates st tc tr ↔
      ((e.ip, e.total) ∈ st.ip_requests ∧ e.errors = valOf st.ip_errors e.ip ∧
       e.error_rate = (e.errors : ℚ) / (e.total : ℚ) ∧
       tc ≤ e.errors ∧ tr ≤ (e.errors : ℚ) / (e.total : ℚ)) := by
  obtain ⟨ip0, t0, e0, r0⟩ := e
  unfold susCandidates
  rw [List.mem_filterMap]
  constructor
  · rintro ⟨⟨ip1, t1⟩, hp, hf⟩
    have hpos1 : 0 < t1 := hpos _ hp
    dsimp only at hf
    rw [if_pos hpos1] at hf
    split at hf
    · rename_i hcond
      rw [Option.some.injEq, SusEntry.mk.injEq] at hf
      obtain ⟨rfl, rfl, rfl, rfl⟩ := hf
      exact ⟨hp, rfl, rfl, hcond.1, hcond.2⟩
    · cases hf
  · rintro ⟨hmem, herr, hrate, hc1, hc2⟩
    dsimp only at herr hrate hc1 hc2 ⊢
    subst herr
    subst hrate
    refine ⟨(ip0, t0), hmem, ?_⟩
    have hpos0 : 0 < t0 := hpos _ hmem
    dsimp only
    rw [if_pos hpos0, if_pos ⟨hc1, hc2⟩]

/-- Claim C1: `identify_suspicious_ips` returns exactly the clients of
`perClientRequestCount` whose error count meets the error-count
threshold AND whose error rate (errors divided by requests) meets the
error-rate threshold — dropping either condition drops the client — and
the result is ordered by error count descending with ties kept in
encounter order (the filter pass `susCandidates` walks
`perClientRequestCount` in insertion order, and the sort is stable). -/
theorem identify_suspicious_ips_spec (st : AggState) (tc : Nat) (tr : ℚ)
    (hpos : ∀ p ∈ st.ip_requests, 0 < p.2) :
    (∀ e : SusEntry, e ∈ identify_suspicious_ips st tc tr ↔
        ((e.ip, e.total) ∈ st.ip_requests ∧ e.errors = valOf st.ip_errors e.ip ∧
         e.error_rate = (e.errors : ℚ) / (e.total : ℚ) ∧
         tc ≤ e.errors ∧ tr ≤ (e.errors : ℚ) / (e.total : ℚ)))
    ∧ (identify_suspicious_ips st tc tr).Pairwise (fun a b => b.errors ≤ a.errors)
    ∧ (∀ k, (identify_suspicious_ips st tc tr).filter (fun e => e.errors = k)
          = (susCandidates st tc tr).filter (fun e => e.errors = k)) := by
  refine ⟨?_, ?_, ?_⟩
  · intro e
    rw [identify_suspicious_ips, mem_sortErrDesc, mem_susCandidates hpos]
  · exact sorted_sortErrDesc _
  · intro k
    exact filter_sortErrDesc _ k

/-- Witness for C1 at a concrete state: a client with 2 requests and 1
error meets thresholds (1, 1/2) and is listed. -/
theorem identify_suspicious_ips_spec_witness :
    (⟨"9.9.9.9".toList, 2, 1, (1 : ℚ) / 2⟩ : SusEntry) ∈
      identify_suspicious_ips
        { total_requests := 2, ip_requests := [("9.9.9.9".toList, 2)]
          ip_errors := [("9.9.9.9".toList, 1)], endpoints := []
          status_codes := [], methods := [], failed_lines := [] } 1 (1 / 2) := by
  refine ((identify_suspicious_ips_spec
    { total_requests := 2, ip_requests := [("9.9.9.9".toList, 2)]
      ip_errors := [("9.9.9.9".toList, 1)], endpoints := []
      status_codes := [], methods := [], failed_lines := [] } 1 (1 / 2)
    (by decide)).1 _).mpr ?_
  refine ⟨by decide, by decide, by norm_num, by decide, by norm_num⟩

/-! ### The merge law (C6) -/

theorem ceq_refl (a : AggState) : CEq a a := ⟨rfl, rfl, rfl, rfl, rfl, rfl⟩

theorem ceq_symm {a b : AggState} (h : CEq a b) : CEq b a := by
  obtain ⟨h1, h2, h3, h4, h5, h6⟩ := h
  exact ⟨h1.symm, h2.symm, h3.symm, h4.symm, h5.symm, h6.symm⟩

theorem ceq_trans {a b c : AggState} (hab : CEq a b) (hbc : CEq b c) :
    CEq a c := by
  obtain ⟨h1, h2, h3, h4, h5, h6⟩ := hab
  obtain ⟨g1, g2, g3, g4, g5, g6⟩ := hbc
  exact ⟨h1.trans g1, h2.trans g2, h3.trans g3, h4.trans g4, h5.trans g5,
    h6.trans g6⟩

theorem mergeMap_nil (a : List (List Char × Nat)) : mergeMap a [] = a := rfl

theorem mergeMap_cons (a : List (List Char × Nat)) (k : List Char) (w : Nat)
    (b : List (List Char × Nat)) :
    mergeMap a ((k, w) :: b) = mergeMap (addAt a k w) b := rfl

theorem addAt_addAt_same (m : List (List Char × Nat)) (k : List Char)
    (v w : Nat) : addAt (addAt m k v) k w = addAt m k (v + w) := by
  induction m with
  | nil => simp [addAt, Nat.add_assoc]
  | cons p rest ih =>
    obtain ⟨k1, v1⟩ := p
    by_cases hk : k = k1
    · simp [addAt, hk, Nat.add_assoc]
    · simp [addAt, hk, ih]

theorem mem_keysOf_addAt_of_mem {m : List (List Char × Nat)} {k : List Char}
    (k0 : List Char) (v0 : Nat) (h : k ∈ keysOf m) :
    k ∈ keysOf (addAt m k0 v0) := by
  by_cases h0 : k0 ∈ keysOf m
  · rwa [keysOf_addAt_mem v0 h0]
  · rw [keysOf_addAt_notMem v0 h0]
    exact List.mem_append_left _ h

theorem self_mem_keysOf_addAt (m : List (List Char × Nat)) (k : List Char)
    (v : Nat) : k ∈ keysOf (addAt m k v) := by
  by_cases h : k ∈ keysOf m
  · rwa [keysOf_addAt_mem v h]
  · rw [keysOf_addAt_notMem v h]
    exact List.mem_append_right _ (List.mem_singleton.2 rfl)

theorem addAt_comm_of_mem {m : List (List Char × Nat)} {k k' : List Char}
    (v w : Nat) (hmem : k ∈ keysOf m) (hne : k ≠ k') :
    addAt (addAt m k v) k' w = addAt (addAt m k' w) k v := by
  induction m with
  | nil => simp [keysOf] at hmem
  | cons p rest ih =>
    obtain ⟨k1, v1⟩ := p
    by_cases hk : k = k1
    · subst hk
      have hk' : ¬(k' = k) := fun he => hne he.symm
      simp [addAt, hk']
    · by_cases hk' : k' = k1
      · subst hk'
        simp [addAt, hk, fun he => hne he]
      · have hmem' : k ∈ keysOf rest := by
          rw [keysOf, List.map_cons, List.mem_cons] at hmem
          rcases hmem with h | h
          · exact absurd h hk
          · exact h
        simp [addAt, hk, hk', ih hmem']

theorem mergeMap_addAt_pending (b : List (List Char × Nat)) :
    ∀ (m : List (List Char × Nat)) (k : List Char) (v : Nat), k ∈ keysOf m →
      mergeMap (addAt m k v) b = addAt (mergeMap m b) k v := by
  induction b with
  | nil => intro m k v _; rfl
  | cons q b' ih =>
    intro m k v hmem
    obtain ⟨k2, w2⟩ := q
    by_cases hk : k2 = k
    · subst hk
      rw [mergeMap_cons, mergeMap_cons, addAt_addAt_same, Nat.add_comm v w2,
        ← addAt_addAt_same]
      exact ih (addAt m k2 w2) k2 v (self_mem_keysOf_addAt m k2 w2)
    · rw [mergeMap_cons, mergeMap_cons,
        addAt_comm_of_mem v w2 hmem (fun he => hk he.symm)]
      exact ih (addAt m k2 w2) k v (mem_keysOf_addAt_of_mem k2 w2 hmem)

theorem mergeMap_addAt (b : List (List Char × Nat)) :
    ∀ (a : List (List Char × Nat)) (k : List Char) (v : Nat),
      mergeMap a (addAt b k v) = addAt (mergeMap a b) k v := by
  induction b with
  | nil => intro a k v; rfl
  | cons p b' ih =>
    intro a k v
    obtain ⟨k1, w1⟩ := p
    by_cases hk : k = k1
    · subst hk
      rw [show addAt ((k, w1) :: b') k v = (k, w1 + v) :: b' from by
            simp [addAt],
        mergeMap_cons, mergeMap_cons, ← addAt_addAt_same]
      exact mergeMap_addAt_pending b' (addAt a k w1) k v
        (self_mem_keysOf_addAt a k w1)
    · rw [show addAt ((k1, w1) :: b') k v = (k1, w1) :: addAt b' k v from by
            simp [addAt, hk],
        mergeMap_cons, mergeMap_cons]
      exact ih (addAt a k1 w1) k v

theorem ceq_ctrStep {x y : AggState} (l : List Char) (h : CEq x y) :
    CEq (ctrStep x l) (ctrStep y l) := by
  obtain ⟨h1, h2, h3, h4, h5, h6⟩ := h
  cases hp : parse_line l with
  | none =>
    simp only [ctrStep, hp]
    exact ⟨h1, h2, h3, h4, h5, h6⟩
  | some parsed =>
    simp only [ctrStep, hp]
    unfold CEq update_statistics
    exact ⟨by rw [h1], by rw [h2], by rw [h3], by rw [h4], by rw [h5],
      by rw [h6]⟩

theorem ceq_ingest_ctrStep {st1 st2 : AggState} (n : Nat) (l : List Char)
    (h : CEq st1 st2) : CEq (ingest st1 n l) (ctrStep st2 l) := by
  obtain ⟨h1, h2, h3, h4, h5, h6⟩ := h
  cases hp : parse_line l with
  | some parsed =>
    simp only [ingest, ctrStep, hp]
    unfold CEq update_statistics
    exact ⟨by rw [h1], by rw [h2], by rw [h3], by rw [h4], by rw [h5],
      by rw [h6]⟩
  | none =>
    simp only [ingest, ctrStep, hp]
    split
    · exact ⟨h1, h2, h3, h4, h5, h6⟩
    · exact ⟨h1, h2, h3, h4, h5, h6⟩

theorem ceq_processFrom_foldl (lines : List (List Char)) :
    ∀ (st1 st2 : AggState) (n : Nat), CEq st1 st2 →
      CEq (processFrom st1 n lines) (List.foldl ctrStep st2 lines) := by
  induction lines with
  | nil => intro st1 st2 n h; exact h
  | cons l ls ih =>
    intro st1 st2 n h
    exact ih _ _ (n + 1) (ceq_ingest_ctrStep n l h)

theorem ceq_mergeStates {a a' b b' : AggState} (ha : CEq a a') (hb : CEq b b') :
    CEq (mergeStates a b) (mergeStates a' b') := by
  obtain ⟨a1, a2, a3, a4, a5, a6⟩ := ha
  obtain ⟨b1, b2, b3, b4, b5, b6⟩ := hb
  unfold CEq mergeStates
  exact ⟨by rw [a1, b1], by rw [a2, b2], by rw [a3, b3], by rw [a4, b4],
    by rw [a5, b5], by rw [a6, b6]⟩

theorem ceq_foldl_ctrStep {x y : AggState} (l : List (List Char)) (h : CEq x y) :
    CEq (List.foldl ctrStep x l) (List.foldl ctrStep y l) := by
  induction l generalizing x y with
  | nil => exact h
  | cons a l ih => exact ih (ceq_ctrStep a h)

theorem ceq_merge_init (a : AggState) : CEq (mergeStates a initState) a := by
  unfold CEq mergeStates initState
  exact ⟨by simp, rfl, rfl, rfl, rfl, rfl⟩

theorem ctrStep_mergeStates (a b : AggState) (l : List Char) :
    CEq (ctrStep (mergeStates a b) l) (mergeStates a (ctrStep b l)) := by
  cases hp : parse_line l with
  | none =>
    simp only [ctrStep, hp]
    exact ceq_refl _
  | some parsed =>
    simp only [ctrStep, hp]
    unfold CEq update_statistics mergeStates
    refine ⟨?_, ?_, ?_, ?_, ?_, ?_⟩
    · dsimp only
      omega
    · dsimp only
      rw [bump, bump, mergeMap_addAt]
    · dsimp only
      by_cases herr :
          (startsWithChar (lookupD parsed "status" ("000".toList)) '4' ||
            startsWithChar (lookupD parsed "status" ("000".toList)) '5') = true
      · rw [if_pos herr, if_pos herr, bump, bump, mergeMap_addAt]
      · rw [if_neg herr, if_neg herr]
    · dsimp only
      rw [bump, bump, mergeMap_addAt]
    · dsimp only
      rw [bump, bump, mergeMap_addAt]
    · dsimp only
      rw [bump, bump, mergeMap_addAt]

theorem ceq_foldl_merge (l : List (List Char)) :
    ∀ (a d : AggState),
      CEq (List.foldl ctrStep (mergeStates a d) l)
        (mergeStates a (List.foldl ctrStep d l)) := by
  induction l using List.reverseRecOn with
  | nil => intro a d; exact ceq_refl _
  | append_singleton l x ih =>
    intro a d
    rw [List.foldl_append, List.foldl_append]
    simp only [List.foldl_cons, List.foldl_nil]
    exact ceq_trans (ceq_ctrStep x (ih a d))
      (ctrStep_mergeStates a (List.foldl ctrStep d l) x)

theorem ceq_foldl_append (l1 l2 : List (List Char)) :
    CEq (List.foldl ctrStep initState (l1 ++ l2))
      (mergeStates (List.foldl ctrStep initState l1)
        (List.foldl ctrStep initState l2)) := by
  rw [List.foldl_append]
  refine ceq_trans (ceq_foldl_ctrStep l2 (ceq_symm (ceq_merge_init _))) ?_
  exact ceq_foldl_merge l2 (List.foldl ctrStep initState l1) initState

theorem ceq_foldl_merge_acc (l : List AggState) :
    ∀ {x y : AggState}, CEq x y →
      CEq (List.foldl mergeStates x l) (List.foldl mergeStates y l) := by
  induction l with
  | nil => intro x y h; exact h
  | cons a l ih => intro x y h; exact ih (ceq_mergeStates h (ceq_refl a))

theorem ceq_chunks (chunks : List (List (List Char))) :
    ∀ pre : List (List Char),
      CEq (List.foldl mergeStates (List.foldl ctrStep initState pre)
            (chunks.map (fun c => List.foldl ctrStep initState c)))
        (List.foldl ctrStep initState (pre ++ chunks.flatten)) := by
  induction chunks with
  | nil =>
    intro pre
    simp only [List.map_nil, List.foldl_nil, List.flatten_nil, List.append_nil]
    exact ceq_refl _
  | cons ch chs ih =>
    intro pre
    simp only [List.map_cons, List.foldl_cons, List.flatten_cons]
    have h1 : CEq
        (mergeStates (List.foldl ctrStep initState pre)
          (List.foldl ctrStep initState ch))
        (List.foldl ctrStep initState (pre ++ ch)) :=
      ceq_symm (ceq_foldl_append pre ch)
    have h2 := ih (pre ++ ch)
    rw [List.append_assoc] at h2
    exact ceq_trans (ceq_foldl_merge_acc _ h1) h2

theorem ceq_foldl_merge_map (chunks : List (List (List Char))) :
    ∀ (x y : AggState), CEq x y →
      CEq (List.foldl mergeStates x (chunks.map process_log))
        (List.foldl mergeStates y
          (chunks.map (fun c => List.foldl ctrStep initState c))) := by
  induction chunks with
  | nil => intro x y h; exact h
  | cons ch chs ih =>
    intro x y h
    simp only [List.map_cons, List.foldl_cons]
    exact ih _ _ (ceq_mergeStates h
      (ceq_processFrom_foldl ch initState initState 1 (ceq_refl _)))

theorem generate_statistics_congr {a b : AggState} (h : CEq a b)
    (tc : Nat) (tr : ℚ) :
    generate_statistics a tc tr = generate_statistics b tc tr := by
  obtain ⟨h1, h2, h3, h4, h5, h6⟩ := h
  simp only [generate_statistics, identify_suspicious_ips, susCandidates]
  rw [h1, h2, h3, h4, h5, h6]

/-- Claim C6: the merge law.  Sharding a line sequence into contiguous
chunks, building an independent aggregation state per chunk, summing the
counter fields field-by-field (`mergeStates`), and only then deriving
the statistics report, yields the same report as ingesting the whole
sequence into a single state. -/
theorem merge_law (chunks : List (List (List Char))) (tc : Nat) (tr : ℚ) :
    generate_statistics
        (List.foldl mergeStates initState (chunks.map process_log)) tc tr
      = generate_statistics (process_log chunks.flatten) tc tr := by
  have hlist : CEq (List.foldl mergeStates initState (chunks.map process_log))
      (List.foldl mergeStates initState
        (chunks.map (fun c => List.foldl ctrStep initState c))) :=
    ceq_foldl_merge_map chunks initState initState (ceq_refl _)
  have h0 : CEq
      (List.foldl mergeStates initState
        (chunks.map (fun c => List.foldl ctrStep initState c)))
      (List.foldl ctrStep initState chunks.flatten) := ceq_chunks chunks []
  have hP : CEq (List.foldl ctrStep initState chunks.flatten)
      (process_log chunks.flatten) :=
    ceq_symm (ceq_processFrom_foldl chunks.flatten initState initState 1
      (ceq_refl _))
  exact generate_statistics_congr (ceq_trans (ceq_trans hlist h0) hP) tc tr
